import Mathlib

/-!
Shallow embedding of the footballai prediction service, centred on the
hand-rolled random-forest implementation in src/services/MLModels.js, the
trainer in src/services/ModelTrainer.js and the feature normalisation in
src/services/BettingAnalyzer.js.

JS numbers are modelled as Rat, JS objects as association lists keyed by
String, and JS exceptions (TypeError from an empty reduce) as Option/Except.
-/

set_option maxHeartbeats 1000000

namespace FootballAI

/-- A feature vector: a JS object mapping feature names to numeric values.
Modelled as an association list; a key that is absent behaves like the JS
value undefined. -/
abbrev Features := List (String × Rat)

abbrev Label := String

/-- JS property read f[name]: the first binding of the key, none when the
key is absent (JS undefined). -/
def jsGet (f : Features) (name : String) : Option Rat :=
  (f.find? (fun p => p.1 == name)).map (fun p => p.2)

/-- Object.keys of a JS object modelled as an association list. -/
def jsKeys (f : List (String × α)) : List String :=
  f.map (fun p => p.1)

/-- The test feature[featureName] <= threshold exactly as JS evaluates it in
buildTree/findBestSplit/predictTree: a present numeric value is compared with
<=, while undefined <= t evaluates to false (the sample goes right). -/
def goesLeft (f : Features) (name : String) (threshold : Rat) : Bool :=
  match jsGet f name with
  | some v => decide (v ≤ threshold)
  | none => false

/-- probabilities[k] for a key known to be present; absent keys read as 0
(JS undefined never arises at the call sites, which only read stored keys). -/
def probOf (probs : List (String × Rat)) (k : String) : Rat :=
  ((probs.find? (fun p => p.1 == k)).map (fun p => p.2)).getD 0

/-- One step of counts[label] = (counts[label] || 0) + 1 on a JS object:
increment an existing binding in place, or append a new binding at the end
(JS string-keyed property insertion order). -/
def bump (m : List (String × Nat)) (k : String) : List (String × Nat) :=
  match m with
  | [] => [(k, 1)]
  | p :: rest => if p.1 = k then (p.1, p.2 + 1) :: rest else p :: bump rest k

/-- The labelCounts / predictionCounts object built by
labels.forEach(label => counts[label] = (counts[label] || 0) + 1):
keys appear in first-encounter order. -/
def countLabels (labels : List Label) : List (String × Nat) :=
  labels.foldl bump []

/-- Object.keys(probabilities).reduce((a, b) => probabilities[a] > probabilities[b] ? a : b):
JS reduce with no initial value throws a TypeError on an empty array, hence
Option. On a tie the reduce keeps b, the later key. -/
def argmaxReduce (probs : List (String × Rat)) : Option Label :=
  match jsKeys probs with
  | [] => none
  | k :: ks => some (ks.foldl (fun a b => if probOf probs a > probOf probs b then a else b) k)

/-- A node of a decision tree: MLModels.js builds plain objects with
type: 'leaf' (probabilities, prediction) or type: 'split'
(feature, threshold, left, right). -/
inductive Node where
  | leaf (probabilities : List (String × Rat)) (prediction : Label)
  | split (feature : String) (threshold : Rat) (left right : Node)
  deriving Repr, DecidableEq

/-- createLeafNode: empirical label frequencies plus the argmax reduce over
the probability keys (which throws on an empty label list). -/
def createLeafNode (labels : List Label) : Option Node :=
  let labelCounts := countLabels labels
  let total := labels.length
  let probabilities := labelCounts.map (fun p => (p.1, (p.2 : Rat) / (total : Rat)))
  (argmaxReduce probabilities).map (fun pred => Node.leaf probabilities pred)

/-- calculateNodeGini: 0 for an empty label list, otherwise
1 - sum over label counts of (count/length)^2, subtracted in key order. -/
def calculateNodeGini (labels : List Label) : Rat :=
  if labels.length = 0 then 0
  else
    (countLabels labels).foldl
      (fun gini p =>
        gini - ((p.2 : Rat) / (labels.length : Rat)) * ((p.2 : Rat) / (labels.length : Rat)))
      1

/-- calculateGiniImpurity: the size-weighted average of the two node ginis. -/
def calculateGiniImpurity (leftLabels rightLabels : List Label) : Rat :=
  let leftGini := calculateNodeGini leftLabels
  let rightGini := calculateNodeGini rightLabels
  let leftWeight := (leftLabels.length : Rat) / ((leftLabels.length : Rat) + (rightLabels.length : Rat))
  let rightWeight := (rightLabels.length : Rat) / ((leftLabels.length : Rat) + (rightLabels.length : Rat))
  leftWeight * leftGini + rightWeight * rightGini

/-- features.map(f => f[featureName]).filter(v => v !== null && v !== undefined). -/
def featureValuesOf (features : List Features) (name : String) : List Rat :=
  features.filterMap (fun f => jsGet f name)

/-- Ascending insertion into a sorted list of rationals. -/
def insertSorted (x : Rat) : List Rat → List Rat
  | [] => [x]
  | y :: ys => if x ≤ y then x :: y :: ys else y :: insertSorted x ys

/-- Numeric ascending sort, the effect of .sort((a, b) => a - b). -/
def sortRats (l : List Rat) : List Rat :=
  l.foldr insertSorted []

/-- [...new Set(featureValues)].sort((a, b) => a - b): first-occurrence
deduplication followed by a numeric ascending sort. -/
def uniqueSortedValues (features : List Features) (name : String) : List Rat :=
  sortRats (featureValuesOf features name).dedup

/-- The thresholds (uniqueValues[i] + uniqueValues[i+1]) / 2 tried for one
feature: midpoints of consecutive entries of the sorted unique value list. -/
def midpoints : List Rat → List Rat
  | a :: b :: rest => (a + b) / 2 :: midpoints (b :: rest)
  | _ => []

/-- The label partition a candidate split induces: the inner
features.forEach((feature, index) => ...) pushing labels[index] left when
feature[featureName] <= threshold and right otherwise. -/
def splitLabels (features : List Features) (labels : List Label) (name : String) (t : Rat) :
    List Label × List Label :=
  (((features.zip labels).filter (fun s => goesLeft s.1 name t)).map (fun s => s.2),
   ((features.zip labels).filter (fun s => !goesLeft s.1 name t)).map (fun s => s.2))

/-- The weighted Gini impurity of one candidate split. -/
def candGini (features : List Features) (labels : List Label) (c : String × Rat) : Rat :=
  let lr := splitLabels features labels c.1 c.2
  calculateGiniImpurity lr.1 lr.2

/-- The candidate (feature, threshold) pairs in the exact enumeration order of
findBestSplit: features in Object.keys(features[0] || {}) order, and for each
feature the midpoint thresholds in ascending value order. -/
def splitCandidates (features : List Features) : List (String × Rat) :=
  (jsKeys (features.headD [])).flatMap
    (fun name => (midpoints (uniqueSortedValues features name)).map (fun t => (name, t)))

/-- The loop body of findBestSplit: the running (bestSplit, bestGini) state,
where none stands for the initial bestGini = Infinity, updated only on a
strict improvement gini < bestGini. -/
def bestSplitStep (features : List Features) (labels : List Label)
    (best : Option ((String × Rat) × Rat)) (c : String × Rat) :
    Option ((String × Rat) × Rat) :=
  let gini := candGini features labels c
  match best with
  | none => some (c, gini)
  | some bg => if gini < bg.2 then some (c, gini) else some bg

/-- findBestSplit: fold the strict-improvement step over the candidates and
return the best candidate (null when there is none). -/
def findBestSplit (features : List Features) (labels : List Label) : Option (String × Rat) :=
  ((splitCandidates features).foldl (bestSplitStep features labels) none).map
    (fun bg => bg.1)

/-- buildTree: stop at depth/minSamplesSplit, otherwise split on the best
candidate, partition the samples in lockstep with their labels, enforce
minSamplesLeaf, and recurse one level deeper on each side. -/
def buildTree (features : List Features) (labels : List Label)
    (depth maxDepth minSamplesSplit minSamplesLeaf : Nat) : Option Node :=
  let nSamples := features.length
  if depth ≥ maxDepth ∨ nSamples < minSamplesSplit then
    createLeafNode labels
  else
    match findBestSplit features labels with
    | none => createLeafNode labels
    | some bestSplit =>
      let samples := features.zip labels
      let leftS := samples.filter (fun s => goesLeft s.1 bestSplit.1 bestSplit.2)
      let rightS := samples.filter (fun s => !goesLeft s.1 bestSplit.1 bestSplit.2)
      if leftS.length < minSamplesLeaf ∨ rightS.length < minSamplesLeaf then
        createLeafNode labels
      else do
        let l ← buildTree (leftS.map (fun s => s.1)) (leftS.map (fun s => s.2))
          (depth + 1) maxDepth minSamplesSplit minSamplesLeaf
        let r ← buildTree (rightS.map (fun s => s.1)) (rightS.map (fun s => s.2))
          (depth + 1) maxDepth minSamplesSplit minSamplesLeaf
        pure (Node.split bestSplit.1 bestSplit.2 l r)
  termination_by maxDepth - depth
  decreasing_by
    all_goals omega

/-- The decision-tree object built by trainDecisionTree. The randomState
passed in its options is destructured but never used and never stored. -/
structure Tree where
  maxDepth : Nat
  minSamplesSplit : Nat
  minSamplesLeaf : Nat
  nodes : Node
  deriving Repr, DecidableEq

/-- trainDecisionTree: wraps buildTree starting at depth 0. The randomState
option is received (as in the source's destructuring) but unused. -/
def trainDecisionTree (features : List Features) (labels : List Label)
    (maxDepth minSamplesSplit minSamplesLeaf : Nat) (_randomState : Int) : Option Tree :=
  (buildTree features labels 0 maxDepth minSamplesSplit minSamplesLeaf).map
    (fun nodes =>
      { maxDepth := maxDepth, minSamplesSplit := minSamplesSplit,
        minSamplesLeaf := minSamplesLeaf, nodes := nodes })

/-- The random-forest model object of trainRandomForest. -/
structure Model where
  nEstimators : Nat
  maxDepth : Nat
  minSamplesSplit : Nat
  minSamplesLeaf : Nat
  randomState : Int
  trees : List Tree
  featureNames : List String
  trainedAt : String
  trainingSamples : Nat
  deriving Repr, DecidableEq

/-- The options of trainRandomForest with their source defaults. -/
structure RFOptions where
  nEstimators : Nat := 100
  maxDepth : Nat := 10
  minSamplesSplit : Nat := 2
  minSamplesLeaf : Nat := 1
  randomState : Int := 42
  deriving Repr

/-- The body of trainRandomForest from the model-object construction through
the tree loop (MLModels.js lines 49-76), parameterised by the prepared
feature/label arrays that line 47 was meant to bind. The wall-clock trainedAt
timestamp is an environment input, passed as now. Each of the nEstimators
trees is trained by trainDecisionTree on the identical full sample set, with
randomState + i as its (unused) per-tree seed; a thrown TypeError in any tree
build aborts the whole call. As the source stands this code is unreachable
(see trainRandomForest below): it is the behaviour intended once the missing
await on prepareTrainingData is added. -/
def trainRandomForestPrepared (features : List Features) (labels : List Label)
    (o : RFOptions) (now : String) : Option Model :=
  ((List.range o.nEstimators).mapM
      (fun (i : Nat) => trainDecisionTree features labels o.maxDepth o.minSamplesSplit
        o.minSamplesLeaf (o.randomState + (i : Int)))).map
    (fun trees =>
      { nEstimators := o.nEstimators, maxDepth := o.maxDepth,
        minSamplesSplit := o.minSamplesSplit, minSamplesLeaf := o.minSamplesLeaf,
        randomState := o.randomState, trees := trees,
        featureNames := jsKeys (features.headD []), trainedAt := now,
        trainingSamples := features.length })

/-- trainRandomForest as the source executes (MLModels.js lines 34-80).
Line 47 reads
  const { features, labels } = this.prepareTrainingData(trainingData);
but prepareTrainingData is an async function (line 334) and this call is NOT
awaited (contrast line 481, where it is), so the destructuring reads fields
off a pending Promise and binds features = labels = undefined: the prepared
arrays are absent, modelled as none. Building the model object then evaluates
Object.keys(features[0] || {}) at line 58, which throws a TypeError on the
undefined features before the tree loop runs, so every call fails whatever
the training data. Were the prepared arrays present, execution would continue
as trainRandomForestPrepared. -/
def trainRandomForest (_trainingData : List μ) (o : RFOptions) (now : String) :
    Option Model :=
  let prepared : Option (List Features × List Label) := none
  match prepared with
  | none => none
  | some fl => trainRandomForestPrepared fl.1 fl.2 o now

/-- predictTree: walk a tree, going left exactly when
features[node.feature] <= node.threshold. -/
def predictTree (node : Node) (features : Features) : Label :=
  match node with
  | Node.leaf _ prediction => prediction
  | Node.split f t l r =>
    if goesLeft features f t then predictTree l features else predictTree r features

/-- The result object of predictRandomForest (modelType is the constant
string 'random_forest'). -/
structure PredictionResult where
  prediction : Label
  probabilities : List (String × Rat)
  confidence : Rat
  deriving Repr, DecidableEq

/-- predictRandomForest: one vote per tree, vote counts divided by the number
of trees, argmax reduce over the resulting probability keys (a TypeError on a
model with no trees), confidence read back from the mapping at the predicted
label. -/
def predictRandomForest (model : Model) (features : Features) : Option PredictionResult :=
  let predictions := model.trees.map (fun t => predictTree t.nodes features)
  let predictionCounts := countLabels predictions
  let totalTrees := model.trees.length
  let probabilities := predictionCounts.map (fun p => (p.1, (p.2 : Rat) / (totalTrees : Rat)))
  (argmaxReduce probabilities).map
    (fun predictedLabel =>
      { prediction := predictedLabel, probabilities := probabilities,
        confidence := probOf probabilities predictedLabel })

/-! ### Model serialization (saveModel / loadModel)

saveModel writes JSON.stringify(model, null, 2) to modelPath/name.json and
loadModel reads the file back through JSON.parse. The JSON text layer is
modelled as the parsed JSON document itself (stringify followed by parse is
the identity on the document), so the file store maps a model name to a JSON
document. -/

/-- A JSON document as produced by JSON.stringify on the model objects. -/
inductive Json where
  | num (q : Rat)
  | str (s : String)
  | arr (items : List Json)
  | obj (fields : List (String × Json))

/-- Decode a JSON number that was written from a JS non-negative integer. -/
def decodeNat (j : Json) : Option Nat :=
  match j with
  | Json.num q => if 0 ≤ q.num ∧ q.den = 1 then some q.num.toNat else none
  | _ => none

/-- Decode a JSON number that was written from a JS integer. -/
def decodeInt (j : Json) : Option Int :=
  match j with
  | Json.num q => if q.den = 1 then some q.num else none
  | _ => none

/-- The JSON shape of one tree node as built by createLeafNode / buildTree. -/
def encodeNode : Node → Json
  | Node.leaf probabilities prediction =>
    Json.obj [("type", Json.str "leaf"),
              ("probabilities", Json.obj (probabilities.map (fun p => (p.1, Json.num p.2)))),
              ("prediction", Json.str prediction)]
  | Node.split f t l r =>
    Json.obj [("type", Json.str "split"), ("feature", Json.str f),
              ("threshold", Json.num t), ("left", encodeNode l), ("right", encodeNode r)]

/-- Read one tree node back out of its JSON shape. -/
def decodeNode : Json → Option Node
  | Json.obj [("type", Json.str "leaf"), ("probabilities", Json.obj ps),
              ("prediction", Json.str pred)] => do
    let probs ← ps.mapM (fun p =>
      match p.2 with
      | Json.num q => some (p.1, q)
      | _ => none)
    pure (Node.leaf probs pred)
  | Json.obj [("type", Json.str "split"), ("feature", Json.str f),
              ("threshold", Json.num t), ("left", jl), ("right", jr)] => do
    let l ← decodeNode jl
    let r ← decodeNode jr
    pure (Node.split f t l r)
  | _ => none

/-- The JSON shape of a trained decision tree. -/
def encodeTree (t : Tree) : Json :=
  Json.obj [("type", Json.str "decision_tree"),
            ("maxDepth", Json.num (t.maxDepth : Rat)),
            ("minSamplesSplit", Json.num (t.minSamplesSplit : Rat)),
            ("minSamplesLeaf", Json.num (t.minSamplesLeaf : Rat)),
            ("nodes", encodeNode t.nodes)]

/-- Read a decision tree back out of its JSON shape. -/
def decodeTree (j : Json) : Option Tree :=
  match j with
  | Json.obj [("type", Json.str "decision_tree"), ("maxDepth", jmd),
              ("minSamplesSplit", jmss), ("minSamplesLeaf", jmsl), ("nodes", jn)] => do
    let md ← decodeNat jmd
    let mss ← decodeNat jmss
    let msl ← decodeNat jmsl
    let n ← decodeNode jn
    pure { maxDepth := md, minSamplesSplit := mss, minSamplesLeaf := msl, nodes := n }
  | _ => none

/-- The JSON shape of a trained random-forest model. -/
def encodeModel (m : Model) : Json :=
  Json.obj [("type", Json.str "random_forest"),
            ("nEstimators", Json.num (m.nEstimators : Rat)),
            ("maxDepth", Json.num (m.maxDepth : Rat)),
            ("minSamplesSplit", Json.num (m.minSamplesSplit : Rat)),
            ("minSamplesLeaf", Json.num (m.minSamplesLeaf : Rat)),
            ("randomState", Json.num (m.randomState : Rat)),
            ("trees", Json.arr (m.trees.map encodeTree)),
            ("featureNames", Json.arr (m.featureNames.map Json.str)),
            ("trainedAt", Json.str m.trainedAt),
            ("trainingSamples", Json.num (m.trainingSamples : Rat))]

/-- Read a random-forest model back out of its JSON shape. -/
def decodeModel (j : Json) : Option Model :=
  match j with
  | Json.obj [("type", Json.str "random_forest"), ("nEstimators", jne),
              ("maxDepth", jmd), ("minSamplesSplit", jmss), ("minSamplesLeaf", jmsl),
              ("randomState", jrs), ("trees", Json.arr jts),
              ("featureNames", Json.arr jfn), ("trainedAt", Json.str ta),
              ("trainingSamples", jtsamples)] => do
    let ne ← decodeNat jne
    let md ← decodeNat jmd
    let mss ← decodeNat jmss
    let msl ← decodeNat jmsl
    let rs ← decodeInt jrs
    let trees ← jts.mapM decodeTree
    let fns ← jfn.mapM (fun f =>
      match f with
      | Json.str s => some s
      | _ => none)
    let ts ← decodeNat jtsamples
    pure { nEstimators := ne, maxDepth := md, minSamplesSplit := mss,
           minSamplesLeaf := msl, randomState := rs, trees := trees,
           featureNames := fns, trainedAt := ta, trainingSamples := ts }
  | _ => none

/-- The models directory: file contents (JSON documents) keyed by model name.
A write prepends, so a lookup sees the latest version of a name. -/
abbrev Store := List (String × Json)

/-- saveModel: write the serialized model to modelPath/modelName.json. -/
def saveModel (store : Store) (model : Model) (modelName : String) : Store :=
  (modelName, encodeModel model) :: store

/-- loadModel: read modelPath/modelName.json (none when the file is missing)
and parse it back into a model object. -/
def loadModel (store : Store) (modelName : String) : Option Model :=
  ((store.find? (fun p => p.1 == modelName)).map (fun p => p.2)).bind decodeModel

/-! ### Feature normalisation (BettingAnalyzer.normalizeFeatures) -/

/-- A JS feature value: numbers are normalised, anything else (e.g. the
h2h_last_5_results string) is passed through untouched. -/
inductive JsVal where
  | num (q : Rat)
  | str (s : String)
  deriving Repr, DecidableEq

/-- Whether pat is an initial segment of l. -/
def leadsWith : List Char → List Char → Bool
  | [], _ => true
  | _ :: _, [] => false
  | a :: as, b :: bs => a == b && leadsWith as bs

/-- Whether pat occurs as a contiguous run anywhere in l. -/
def hasSub (pat : List Char) : List Char → Bool
  | [] => leadsWith pat []
  | c :: rest => leadsWith pat (c :: rest) || hasSub pat rest

/-- key.includes(pattern): substring containment on the character lists. -/
def strContains (s pat : String) : Bool :=
  hasSub pat.data s.data

/-- normalize(value, min, max): 0.5 on a degenerate range, otherwise the
affine map clamped into [0, 1]. -/
def normalize (value mn mx : Rat) : Rat :=
  if mx = mn then 1 / 2
  else max 0 (min 1 ((value - mn) / (mx - mn)))

/-- Whether a feature key matches one of the five normalisation groups of
normalizeFeatures, in the if-chain's order. -/
def matchesGroup (k : String) : Bool :=
  strContains k "win_rate" || strContains k "goals" || strContains k "points" ||
    strContains k "goal_difference" || strContains k "momentum"

/-- normalizeFeatures: numeric values are rescaled with the fixed
per-group bounds picked by substring match on the key (win_rate 0..1,
goals 0..10, points 0..30, goal_difference -20..20, momentum -9..9);
a numeric key matching no group, and every non-numeric value, is copied
unchanged. -/
def normalizeFeatures (features : List (String × JsVal)) : List (String × JsVal) :=
  features.map (fun kv =>
    match kv.2 with
    | JsVal.num x =>
      let nv :=
        if strContains kv.1 "win_rate" then normalize x 0 1
        else if strContains kv.1 "goals" then normalize x 0 10
        else if strContains kv.1 "points" then normalize x 0 30
        else if strContains kv.1 "goal_difference" then normalize x (-20) 20
        else if strContains kv.1 "momentum" then normalize x (-9) 9
        else x
      (kv.1, JsVal.num nv)
    | v => (kv.1, v))

/-! ### ModelTrainer: cross-validation folds and the training guard -/

/-- data.slice(start, end) for 0 <= start <= end (the only way the trainer
calls it). -/
def jsSlice (l : List α) (s e : Nat) : List α :=
  (l.drop s).take (e - s)

/-- getCVFold: fold foldIndex of totalFolds over data, returning
(cvTrainData, cvValData). The fold size is integer division; the last fold
runs to the end of the array; the training part is everything before plus
everything after the validation slice. -/
def getCVFold (data : List α) (foldIndex totalFolds : Nat) : List α × List α :=
  let foldSize := data.length / totalFolds
  let startIndex := foldIndex * foldSize
  let endIndex := if foldIndex = totalFolds - 1 then data.length else (foldIndex + 1) * foldSize
  (jsSlice data 0 startIndex ++ data.drop endIndex, jsSlice data startIndex endIndex)

/-- trainModels, parameterised over the per-type training pipeline
(trainModelType runs cross-validation, hyper-parameter search and I/O, and
its failures are caught per type, matching the inner try/catch): the guard
trainingData.length < 100 throws before any model is trained or saved; on
success each successfully trained best model is saved under
modelType + "_best". -/
def trainModels (trainModelType : String → List μ → Option Model)
    (modelTypes : List String) (trainingData : List μ) (store : Store) :
    Except String Store :=
  if trainingData.length < 100 then
    Except.error ("Insufficient training data: " ++ toString trainingData.length ++
      " matches. Need at least 100 matches for reliable training.")
  else
    Except.ok (modelTypes.foldl
      (fun st mt =>
        match trainModelType mt trainingData with
        | some m => saveModel st m (mt ++ "_best")
        | none => st)
      store)

/-- The binary step of the argmax reduce, abstracted over the scoring
function: keeps the accumulator only on a strictly larger score, so a tie
keeps the later element. -/
def gstep (g : α → Rat) (x y : α) : α :=
  if g x > g y then x else y

/-! ### Lemmas: label counting -/

theorem bump_ne_nil (m : List (String × Nat)) (k : String) : bump m k ≠ [] := by
  cases m with
  | nil => simp [bump]
  | cons p rest => by_cases h : p.1 = k <;> simp [bump, h]

theorem foldl_bump_ne_nil (l : List Label) (m : List (String × Nat)) (hm : m ≠ []) :
    l.foldl bump m ≠ [] := by
  induction l generalizing m with
  | nil => simpa using hm
  | cons a l ih => exact ih _ (bump_ne_nil m a)

theorem countLabels_ne_nil (l : List Label) (h : l ≠ []) : countLabels l ≠ [] := by
  cases l with
  | nil => exact absurd rfl h
  | cons a l => exact foldl_bump_ne_nil l (bump [] a) (bump_ne_nil [] a)

theorem sum_bump (m : List (String × Nat)) (k : String) :
    ((bump m k).map (fun p => p.2)).sum = (m.map (fun p => p.2)).sum + 1 := by
  induction m with
  | nil => simp [bump]
  | cons p rest ih =>
    by_cases h : p.1 = k
    · simp [bump, h]; omega
    · simp [bump, h, ih]; omega

theorem sum_foldl_bump (l : List Label) (m : List (String × Nat)) :
    ((l.foldl bump m).map (fun p => p.2)).sum = (m.map (fun p => p.2)).sum + l.length := by
  induction l generalizing m with
  | nil => simp
  | cons a l ih => simp [List.foldl_cons, ih (bump m a), sum_bump]; omega

theorem sum_countLabels (l : List Label) :
    ((countLabels l).map (fun p => p.2)).sum = l.length := by
  simpa [countLabels] using sum_foldl_bump l []

theorem jsKeys_bump (m : List (String × Nat)) (k : String) :
    jsKeys (bump m k) = if k ∈ jsKeys m then jsKeys m else jsKeys m ++ [k] := by
  induction m with
  | nil => simp [bump, jsKeys]
  | cons p rest ih =>
    by_cases h : p.1 = k
    · simp [bump, h, jsKeys]
    · have hne : ¬ k = p.1 := fun hk => h hk.symm
      rw [show bump (p :: rest) k = p :: bump rest k from by simp [bump, h]]
      simp only [jsKeys, List.map_cons] at ih ⊢
      rw [ih]
      by_cases hmem : k ∈ List.map (fun q => q.1) rest
      · simp [hmem, hne]
      · simp [hmem, hne]

theorem nodup_jsKeys_bump (m : List (String × Nat)) (k : String)
    (h : (jsKeys m).Nodup) : (jsKeys (bump m k)).Nodup := by
  rw [jsKeys_bump]
  by_cases hmem : k ∈ jsKeys m
  · simpa [hmem] using h
  · rw [if_neg hmem]
    exact (List.perm_append_singleton k (jsKeys m)).symm.nodup (List.nodup_cons.mpr ⟨hmem, h⟩)

theorem nodup_jsKeys_foldl_bump (l : List Label) (m : List (String × Nat))
    (h : (jsKeys m).Nodup) : (jsKeys (l.foldl bump m)).Nodup := by
  induction l generalizing m with
  | nil => simpa using h
  | cons a l ih => exact ih (bump m a) (nodup_jsKeys_bump m a h)

theorem nodup_jsKeys_countLabels (l : List Label) : (jsKeys (countLabels l)).Nodup :=
  nodup_jsKeys_foldl_bump l [] (by simp [jsKeys])

/-! ### Lemmas: reading an association list with distinct keys -/

theorem probOf_eq_of_mem (probs : List (String × Rat)) (k : String) (v : Rat)
    (hnd : (jsKeys probs).Nodup) (hmem : (k, v) ∈ probs) : probOf probs k = v := by
  induction probs with
  | nil => simp at hmem
  | cons p rest ih =>
    have hnd2 : p.1 ∉ jsKeys rest ∧ (jsKeys rest).Nodup := by
      simpa [jsKeys, List.nodup_cons] using hnd
    rcases List.mem_cons.mp hmem with h | h
    · simp [probOf, ← h]
    · have hk : ¬ p.1 = k := by
        intro hpk
        have hkin : k ∈ jsKeys rest := by
          simpa [jsKeys] using List.mem_map_of_mem (fun q => q.1) h
        exact hnd2.1 (by rw [hpk]; exact hkin)
      have := ih hnd2.2 h
      simpa [probOf, hk] using this

theorem mem_of_probOf (probs : List (String × Rat)) (k : String)
    (hmem : k ∈ jsKeys probs) : (k, probOf probs k) ∈ probs := by
  induction probs with
  | nil => simp [jsKeys] at hmem
  | cons p rest ih =>
    by_cases hk : p.1 = k
    · have hp : (k, p.2) = p := by rw [← hk]
      rw [show probOf (p :: rest) k = p.2 from by simp [probOf, hk]]
      rw [hp]
      exact List.mem_cons_self p rest
    · have hkin : k ∈ jsKeys rest := by
        have hor : k = p.1 ∨ k ∈ List.map (fun q => q.1) rest := by
          simpa [jsKeys] using hmem
        rcases hor with h | h
        · exact absurd h.symm hk
        · simpa [jsKeys] using h
      rw [show probOf (p :: rest) k = probOf rest k from by simp [probOf, hk]]
      exact List.mem_cons_of_mem p (ih hkin)

/-! ### Lemmas: the argmax reduce -/

theorem foldl_gstep_spec (g : α → Rat) (l : List α) : ∀ a : α,
    ∃ l1 l2,
      a :: l = l1 ++ (l.foldl (gstep g) a) :: l2 ∧
      (∀ y ∈ a :: l, g y ≤ g (l.foldl (gstep g) a)) ∧
      (∀ y ∈ l2, g y < g (l.foldl (gstep g) a)) := by
  induction l with
  | nil => exact fun a => ⟨[], [], by simp, by simp, by simp⟩
  | cons b l ih =>
    intro a
    by_cases h : g a > g b
    · have hab : gstep g a b = a := if_pos h
      have hfold : (b :: l).foldl (gstep g) a = l.foldl (gstep g) a := by
        rw [List.foldl_cons, hab]
      obtain ⟨l1, l2, hdec, hmax, hsuf⟩ := ih a
      rw [hfold]
      cases l1 with
      | nil =>
        simp only [List.nil_append, List.cons.injEq] at hdec
        refine ⟨[], b :: l, ?_, ?_, ?_⟩
        · rw [List.nil_append, ← hdec.1]
        · intro y hy
          rcases List.mem_cons.mp hy with h1 | hy1
          · subst h1; rw [← hdec.1]
          · rcases List.mem_cons.mp hy1 with h2 | hy2
            · subst h2; rw [← hdec.1]; exact le_of_lt h
            · exact hmax y (List.mem_cons_of_mem a hy2)
        · intro y hy
          rcases List.mem_cons.mp hy with h1 | hy1
          · subst h1; rw [← hdec.1]; exact h
          · exact hsuf y (hdec.2 ▸ hy1)
      | cons c l1 =>
        simp only [List.cons_append, List.cons.injEq] at hdec
        refine ⟨a :: b :: l1, l2, ?_, ?_, ?_⟩
        · show a :: b :: l = a :: b :: (l1 ++ l.foldl (gstep g) a :: l2)
          rw [← hdec.2]
        · intro y hy
          rcases List.mem_cons.mp hy with h1 | hy1
          · rw [h1]; exact hmax a (List.mem_cons_self a l)
          · rcases List.mem_cons.mp hy1 with h2 | hy2
            · rw [h2]; exact le_trans (le_of_lt h) (hmax a (List.mem_cons_self a l))
            · exact hmax y (List.mem_cons_of_mem a hy2)
        · exact hsuf
    · have hab : gstep g a b = b := if_neg h
      have hfold : (b :: l).foldl (gstep g) a = l.foldl (gstep g) b := by
        rw [List.foldl_cons, hab]
      obtain ⟨l1, l2, hdec, hmax, hsuf⟩ := ih b
      rw [hfold]
      refine ⟨a :: l1, l2, ?_, ?_, ?_⟩
      · rw [List.cons_append, ← hdec]
      · intro y hy
        rcases List.mem_cons.mp hy with h1 | hy1
        · subst h1; exact le_trans (le_of_not_lt h) (hmax b (List.mem_cons_self b l))
        · exact hmax y hy1
      · exact hsuf

/-- The argmax reduce picks a key of maximal probability: the keys decompose
around the pick, everything scores at most the pick, and everything strictly
after the pick scores strictly below it (ties keep the later key, so nothing
after the pick ties with it). -/
theorem argmaxReduce_spec (probs : List (String × Rat)) (h : probs ≠ []) :
    ∃ pl, argmaxReduce probs = some pl ∧
      (∀ k ∈ jsKeys probs, probOf probs k ≤ probOf probs pl) ∧
      ∃ l1 l2, jsKeys probs = l1 ++ pl :: l2 ∧
        ∀ k ∈ l2, probOf probs k < probOf probs pl := by
  have hne : jsKeys probs ≠ [] := by
    cases probs with
    | nil => exact absurd rfl h
    | cons p rest => simp [jsKeys]
  obtain ⟨k, ks, hks⟩ := List.exists_cons_of_ne_nil hne
  obtain ⟨l1, l2, hdec, hmax, hsuf⟩ := foldl_gstep_spec (probOf probs) ks k
  refine ⟨ks.foldl (gstep (probOf probs)) k, ?_, ?_, l1, l2, ?_, hsuf⟩
  · rw [show argmaxReduce probs
        = match jsKeys probs with
          | [] => none
          | k :: ks => some (ks.foldl (gstep (probOf probs)) k) from rfl, hks]
  · intro k2 hk2
    rw [hks] at hk2
    exact hmax k2 hk2
  · rw [hks, hdec]

/-! ### Lemmas: running predictRandomForest -/

theorem jsKeys_map_scale (l : List (String × Nat)) (c : Rat) :
    jsKeys (l.map (fun p => (p.1, (p.2 : Rat) / c))) = jsKeys l := by
  simp [jsKeys, List.map_map, Function.comp]

theorem sum_snd_map_scale (l : List (String × Nat)) (c : Rat) :
    ((l.map (fun p => (p.1, (p.2 : Rat) / c))).map (fun p => p.2)).sum
      = ((l.map (fun p => p.2)).sum : Rat) / c := by
  induction l with
  | nil => simp
  | cons p rest ih =>
    simp only [List.map_cons, List.sum_cons, ih]
    rw [div_add_div_same]

theorem sum_snd_cast (m : List (String × Nat)) :
    (m.map (fun p => (p.2 : Rat))).sum = (((m.map (fun p => p.2)).sum : Nat) : Rat) := by
  induction m with
  | nil => simp
  | cons p rest ih =>
    simp only [List.map_cons, List.sum_cons, ih]
    push_cast
    ring

/-- Anatomy of a successful predictRandomForest call: the probability mapping
is the scaled vote counts, the confidence is the mapping read back at the
predicted label, the predicted label carries the maximal probability, and
every key after it in the mapping scores strictly below it. -/
theorem predictRF_spec (model : Model) (x : Features) (h : model.trees ≠ []) :
    ∃ r, predictRandomForest model x = some r ∧
      r.probabilities = (countLabels (model.trees.map (fun t => predictTree t.nodes x))).map
        (fun p => (p.1, (p.2 : Rat) / (model.trees.length : Rat))) ∧
      r.confidence = probOf r.probabilities r.prediction ∧
      (r.prediction, r.confidence) ∈ r.probabilities ∧
      (∀ p ∈ r.probabilities, p.2 ≤ r.confidence) ∧
      ∃ l1 l2, jsKeys r.probabilities = l1 ++ r.prediction :: l2 ∧
        ∀ k ∈ l2, probOf r.probabilities k < r.confidence := by
  have hcne : countLabels (model.trees.map (fun t => predictTree t.nodes x)) ≠ [] :=
    countLabels_ne_nil _ (by simpa using h)
  have hpne : (countLabels (model.trees.map (fun t => predictTree t.nodes x))).map
      (fun p => (p.1, (p.2 : Rat) / (model.trees.length : Rat))) ≠ [] := by
    simpa using hcne
  have hnd : (jsKeys ((countLabels (model.trees.map (fun t => predictTree t.nodes x))).map
      (fun p => (p.1, (p.2 : Rat) / (model.trees.length : Rat))))).Nodup := by
    rw [jsKeys_map_scale]
    exact nodup_jsKeys_countLabels _
  obtain ⟨pl, hpl, hmax, l1, l2, hdec, hsuf⟩ := argmaxReduce_spec _ hpne
  refine ⟨{ prediction := pl,
            probabilities := (countLabels (model.trees.map (fun t => predictTree t.nodes x))).map
              (fun p => (p.1, (p.2 : Rat) / (model.trees.length : Rat))),
            confidence := probOf ((countLabels (model.trees.map
              (fun t => predictTree t.nodes x))).map
              (fun p => (p.1, (p.2 : Rat) / (model.trees.length : Rat)))) pl },
    ?_, rfl, rfl, ?_, ?_, l1, l2, hdec, hsuf⟩
  · simp only [predictRandomForest]
    rw [hpl]
    rfl
  · exact mem_of_probOf _ pl (by rw [hdec]; exact List.mem_append_right l1 (List.mem_cons_self pl l2))
  · intro p hp
    have hv := probOf_eq_of_mem _ p.1 p.2 hnd (by simpa using hp)
    rw [← hv]
    exact hmax p.1 (List.mem_map_of_mem (fun q => q.1) hp)

/-- C1: for a trained forest with at least one tree, the returned probability
mapping sums exactly to 1 (hence within the 1e-6 tolerance), and the
confidence is the predicted label's probability, which is the maximum value
of the mapping. -/
theorem predictRandomForest_sum_one_confidence_max (model : Model) (x : Features)
    (h : model.trees ≠ []) :
    ∃ r, predictRandomForest model x = some r ∧
      (r.probabilities.map (fun p => p.2)).sum = 1 ∧
      |(r.probabilities.map (fun p => p.2)).sum - 1| ≤ 1 / 1000000 ∧
      r.confidence = probOf r.probabilities r.prediction ∧
      (r.prediction, r.confidence) ∈ r.probabilities ∧
      ∀ p ∈ r.probabilities, p.2 ≤ r.confidence := by
  obtain ⟨r, hrun, hprobs, hconf, hmem, hmax, _⟩ := predictRF_spec model x h
  have hTne : ((model.trees.length : Nat) : Rat) ≠ 0 := by
    have hn : model.trees.length ≠ 0 := fun h0 => h (List.length_eq_zero.mp h0)
    exact_mod_cast hn
  have hsum : (r.probabilities.map (fun p => p.2)).sum = 1 := by
    rw [hprobs, sum_snd_map_scale, sum_snd_cast, sum_countLabels, List.length_map]
    exact div_self hTne
  exact ⟨r, hrun, hsum, by rw [hsum]; norm_num, hconf, hmem, hmax⟩

/-- Witness for C1 at a one-tree model and the empty feature vector. -/
theorem predictRandomForest_sum_one_confidence_max_witness :
    ∃ r, predictRandomForest
        { nEstimators := 1, maxDepth := 10, minSamplesSplit := 2, minSamplesLeaf := 1,
          randomState := 42,
          trees := [{ maxDepth := 10, minSamplesSplit := 2, minSamplesLeaf := 1,
                      nodes := Node.leaf [("HOME_TEAM", 1)] "HOME_TEAM" }],
          featureNames := [], trainedAt := "now", trainingSamples := 1 } [] = some r ∧
      (r.probabilities.map (fun p => p.2)).sum = 1 ∧
      |(r.probabilities.map (fun p => p.2)).sum - 1| ≤ 1 / 1000000 ∧
      r.confidence = probOf r.probabilities r.prediction ∧
      (r.prediction, r.confidence) ∈ r.probabilities ∧
      ∀ p ∈ r.probabilities, p.2 ≤ r.confidence :=
  predictRandomForest_sum_one_confidence_max
    { nEstimators := 1, maxDepth := 10, minSamplesSplit := 2, minSamplesLeaf := 1,
      randomState := 42,
      trees := [{ maxDepth := 10, minSamplesSplit := 2, minSamplesLeaf := 1,
                  nodes := Node.leaf [("HOME_TEAM", 1)] "HOME_TEAM" }],
      featureNames := [], trainedAt := "now", trainingSamples := 1 } [] (by simp)

/-! ### C6: tie-breaking of the argmax reduce -/

theorem argmax_member_spec (probs : List (String × Rat)) (hnd : (jsKeys probs).Nodup)
    (hne : probs ≠ []) :
    ∃ pl, argmaxReduce probs = some pl ∧ (∀ p ∈ probs, p.2 ≤ probOf probs pl) ∧
      ∃ l1 l2, jsKeys probs = l1 ++ pl :: l2 ∧ ∀ k ∈ l2, probOf probs k < probOf probs pl := by
  obtain ⟨pl, hpl, hmax, l1, l2, hdec, hsuf⟩ := argmaxReduce_spec probs hne
  refine ⟨pl, hpl, ?_, l1, l2, hdec, hsuf⟩
  intro p hp
  have hv := probOf_eq_of_mem _ p.1 p.2 hnd (by simpa using hp)
  rw [← hv]
  exact hmax p.1 (List.mem_map_of_mem (fun q => q.1) hp)

/-- C6 counterexample: at a leaf whose two labels tie at probability 1/2,
createLeafNode predicts the second-encountered label, not the first. -/
theorem createLeafNode_tie_goes_last :
    createLeafNode ["HOME_TEAM", "AWAY_TEAM"]
      = some (Node.leaf [("HOME_TEAM", 1 / 2), ("AWAY_TEAM", 1 / 2)] "AWAY_TEAM") ∧
    "AWAY_TEAM" ≠ "HOME_TEAM" := by
  constructor
  · norm_num +decide [createLeafNode, countLabels, bump, argmaxReduce, jsKeys, probOf]
  · decide

/-- C6 amended: at both argmax sites (leaf majority class in createLeafNode,
ensemble prediction in predictRandomForest) the chosen label has maximal
probability, and ties are broken in favour of the LAST-encountered label in
enumeration order: every key strictly after the chosen one scores strictly
below it. -/
theorem argmax_tie_breaks_last (labels : List Label) (probs : List (String × Rat))
    (pred : Label) (model : Model) (x : Features) :
    (createLeafNode labels = some (Node.leaf probs pred) →
      (∀ p ∈ probs, p.2 ≤ probOf probs pred) ∧
      ∃ l1 l2, jsKeys probs = l1 ++ pred :: l2 ∧
        ∀ k ∈ l2, probOf probs k < probOf probs pred) ∧
    (model.trees ≠ [] →
      ∃ r, predictRandomForest model x = some r ∧
        (∀ p ∈ r.probabilities, p.2 ≤ probOf r.probabilities r.prediction) ∧
        ∃ l1 l2, jsKeys r.probabilities = l1 ++ r.prediction :: l2 ∧
          ∀ k ∈ l2, probOf r.probabilities k < probOf r.probabilities r.prediction) := by
  constructor
  · intro hleaf
    have hrun : createLeafNode labels
        = (argmaxReduce ((countLabels labels).map
            (fun p => (p.1, (p.2 : Rat) / (labels.length : Rat))))).map
          (fun pl => Node.leaf ((countLabels labels).map
            (fun p => (p.1, (p.2 : Rat) / (labels.length : Rat)))) pl) := rfl
    rw [hrun] at hleaf
    rcases Option.map_eq_some'.mp hleaf with ⟨pl, hpl, hnode⟩
    have hinj : ((countLabels labels).map
        (fun p => (p.1, (p.2 : Rat) / (labels.length : Rat)))) = probs ∧ pl = pred := by
      simpa [Node.leaf.injEq] using hnode
    have hPne : ((countLabels labels).map
        (fun p => (p.1, (p.2 : Rat) / (labels.length : Rat)))) ≠ [] := by
      intro hnil
      rw [hnil] at hpl
      exact Option.noConfusion hpl
    have hnd : (jsKeys ((countLabels labels).map
        (fun p => (p.1, (p.2 : Rat) / (labels.length : Rat))))).Nodup := by
      rw [jsKeys_map_scale]
      exact nodup_jsKeys_countLabels _
    obtain ⟨pl2, hpl2, hmax, l1, l2, hdec, hsuf⟩ := argmax_member_spec _ hnd hPne
    have hpleq : pl2 = pl := by
      rw [hpl] at hpl2
      exact (Option.some.inj hpl2).symm
    rw [hpleq, hinj.2] at hmax hdec hsuf
    rw [hinj.1] at hmax hdec hsuf
    exact ⟨hmax, l1, l2, hdec, hsuf⟩
  · intro h
    obtain ⟨r, hrun, _, hconf, _, hmax, l1, l2, hdec, hsuf⟩ := predictRF_spec model x h
    rw [hconf] at hmax hsuf
    exact ⟨r, hrun, hmax, l1, l2, hdec, hsuf⟩

/-- Witness for the amended C6, at a three-label leaf and a one-tree model. -/
theorem argmax_tie_breaks_last_witness :
    ((∀ p ∈ [("A", (2 : Rat) / 3), ("B", (1 : Rat) / 3)],
        p.2 ≤ probOf [("A", (2 : Rat) / 3), ("B", (1 : Rat) / 3)] "A") ∧
      ∃ l1 l2, jsKeys [("A", (2 : Rat) / 3), ("B", (1 : Rat) / 3)] = l1 ++ "A" :: l2 ∧
        ∀ k ∈ l2, probOf [("A", (2 : Rat) / 3), ("B", (1 : Rat) / 3)] k
          < probOf [("A", (2 : Rat) / 3), ("B", (1 : Rat) / 3)] "A") ∧
    (∃ r, predictRandomForest
        { nEstimators := 1, maxDepth := 10, minSamplesSplit := 2, minSamplesLeaf := 1,
          randomState := 42,
          trees := [{ maxDepth := 10, minSamplesSplit := 2, minSamplesLeaf := 1,
                      nodes := Node.leaf [("DRAW", 1)] "DRAW" }],
          featureNames := [], trainedAt := "now", trainingSamples := 1 } [] = some r ∧
      (∀ p ∈ r.probabilities, p.2 ≤ probOf r.probabilities r.prediction) ∧
      ∃ l1 l2, jsKeys r.probabilities = l1 ++ r.prediction :: l2 ∧
        ∀ k ∈ l2, probOf r.probabilities k < probOf r.probabilities r.prediction) :=
  ⟨(argmax_tie_breaks_last ["A", "A", "B"] [("A", (2 : Rat) / 3), ("B", (1 : Rat) / 3)] "A"
      { nEstimators := 1, maxDepth := 10, minSamplesSplit := 2, minSamplesLeaf := 1,
        randomState := 42,
        trees := [{ maxDepth := 10, minSamplesSplit := 2, minSamplesLeaf := 1,
                    nodes := Node.leaf [("DRAW", 1)] "DRAW" }],
        featureNames := [], trainedAt := "now", trainingSamples := 1 } []).1
      (by norm_num +decide [createLeafNode, countLabels, bump, argmaxReduce, jsKeys, probOf]),
   (argmax_tie_breaks_last ["A", "A", "B"] [("A", (2 : Rat) / 3), ("B", (1 : Rat) / 3)] "A"
      { nEstimators := 1, maxDepth := 10, minSamplesSplit := 2, minSamplesLeaf := 1,
        randomState := 42,
        trees := [{ maxDepth := 10, minSamplesSplit := 2, minSamplesLeaf := 1,
                    nodes := Node.leaf [("DRAW", 1)] "DRAW" }],
        featureNames := [], trainedAt := "now", trainingSamples := 1 } []).2 (by simp)⟩

/-! ### C10 / C9: behaviour of buildTree on empty and non-empty samples -/

theorem createLeafNode_isSome (labels : List Label) (h : labels ≠ []) :
    ∃ nd, createLeafNode labels = some nd := by
  have hne : (countLabels labels).map
      (fun p => (p.1, (p.2 : Rat) / (labels.length : Rat))) ≠ [] := by
    simpa using countLabels_ne_nil labels h
  obtain ⟨pl, hpl, _⟩ := argmaxReduce_spec _ hne
  have hrun : createLeafNode labels
      = (argmaxReduce ((countLabels labels).map
          (fun p => (p.1, (p.2 : Rat) / (labels.length : Rat))))).map
        (fun pred => Node.leaf ((countLabels labels).map
          (fun p => (p.1, (p.2 : Rat) / (labels.length : Rat)))) pred) := rfl
  rw [hrun, hpl]
  exact ⟨_, rfl⟩

theorem buildTree_nil (d md mss msl : Nat) : buildTree [] [] d md mss msl = none := by
  rw [buildTree]
  split
  · rfl
  · rfl

/-- C10 (code bug): buildTree invoked with an empty sample set reaches
createLeafNode([]), whose argmax reduce over the empty key array throws a
TypeError (none), so buildTree returns a value only on non-empty samples -
that part of the claim holds of the code. But the claimed route through
trainRandomForest does not exist: trainRandomForest throws a TypeError at
Object.keys(features[0]) on every call, zero training samples included,
because the async prepareTrainingData is called without await, and it never
invokes buildTree or createLeafNode at all. -/
theorem buildTree_empty_samples_throws {μ : Type} (d md mss msl : Nat) (o : RFOptions)
    (now : String) :
    createLeafNode [] = none ∧
    buildTree [] [] d md mss msl = none ∧
    trainRandomForest ([] : List μ) o now = none :=
  ⟨rfl, buildTree_nil d md mss msl, rfl⟩

theorem buildTree_isSome (n : Nat) : ∀ (d md mss msl : Nat)
    (features : List Features) (labels : List Label),
    md - d ≤ n → 1 ≤ msl → features ≠ [] → labels.length = features.length →
    ∃ t, buildTree features labels d md mss msl = some t := by
  induction n with
  | zero =>
    intro d md mss msl features labels hn hmsl hne hlen
    have hlabne : labels ≠ [] := by
      intro h0
      rw [h0] at hlen
      exact hne (List.length_eq_zero.mp hlen.symm)
    rw [buildTree]
    rw [if_pos (Or.inl (by omega))]
    exact createLeafNode_isSome labels hlabne
  | succ n ih =>
    intro d md mss msl features labels hn hmsl hne hlen
    have hlabne : labels ≠ [] := by
      intro h0
      rw [h0] at hlen
      exact hne (List.length_eq_zero.mp hlen.symm)
    rw [buildTree]
    by_cases hstop : d ≥ md ∨ features.length < mss
    · rw [if_pos hstop]
      exact createLeafNode_isSome labels hlabne
    · rw [if_neg hstop]
      cases hbs : findBestSplit features labels with
      | none => exact createLeafNode_isSome labels hlabne
      | some bestSplit =>
        show ∃ t,
          (if ((features.zip labels).filter
                (fun s => goesLeft s.1 bestSplit.1 bestSplit.2)).length < msl ∨
              ((features.zip labels).filter
                (fun s => !goesLeft s.1 bestSplit.1 bestSplit.2)).length < msl then
            createLeafNode labels
          else do
            let l ← buildTree
              (((features.zip labels).filter
                (fun s => goesLeft s.1 bestSplit.1 bestSplit.2)).map (fun s => s.1))
              (((features.zip labels).filter
                (fun s => goesLeft s.1 bestSplit.1 bestSplit.2)).map (fun s => s.2))
              (d + 1) md mss msl
            let r ← buildTree
              (((features.zip labels).filter
                (fun s => !goesLeft s.1 bestSplit.1 bestSplit.2)).map (fun s => s.1))
              (((features.zip labels).filter
                (fun s => !goesLeft s.1 bestSplit.1 bestSplit.2)).map (fun s => s.2))
              (d + 1) md mss msl
            pure (Node.split bestSplit.1 bestSplit.2 l r)) = some t
        by_cases hleaf :
            ((features.zip labels).filter
              (fun s => goesLeft s.1 bestSplit.1 bestSplit.2)).length < msl ∨
            ((features.zip labels).filter
              (fun s => !goesLeft s.1 bestSplit.1 bestSplit.2)).length < msl
        · rw [if_pos hleaf]
          exact createLeafNode_isSome labels hlabne
        · rw [if_neg hleaf]
          have hd : md - (d + 1) ≤ n := by omega
          obtain ⟨lt, hlt⟩ := ih (d + 1) md mss msl
            (((features.zip labels).filter
              (fun s => goesLeft s.1 bestSplit.1 bestSplit.2)).map (fun s => s.1))
            (((features.zip labels).filter
              (fun s => goesLeft s.1 bestSplit.1 bestSplit.2)).map (fun s => s.2))
            hd hmsl
            (by
              intro h0
              have hlen0 := congrArg List.length h0
              rw [List.length_map] at hlen0
              simp only [List.length_nil] at hlen0
              omega)
            (by simp)
          obtain ⟨rt, hrt⟩ := ih (d + 1) md mss msl
            (((features.zip labels).filter
              (fun s => !goesLeft s.1 bestSplit.1 bestSplit.2)).map (fun s => s.1))
            (((features.zip labels).filter
              (fun s => !goesLeft s.1 bestSplit.1 bestSplit.2)).map (fun s => s.2))
            hd hmsl
            (by
              intro h0
              have hlen0 := congrArg List.length h0
              rw [List.length_map] at hlen0
              simp only [List.length_nil] at hlen0
              omega)
            (by simp)
          rw [hlt, hrt]
          exact ⟨_, rfl⟩

theorem mapM_eq_replicate (f : β → Option α) (t : α) : ∀ l : List β,
    (∀ i ∈ l, f i = some t) → l.mapM f = some (List.replicate l.length t) := by
  intro l
  induction l with
  | nil => intro _; rfl
  | cons a l ih =>
    intro hf
    rw [List.mapM_cons, hf a (List.mem_cons_self a l),
      ih (fun i hi => hf i (List.mem_cons_of_mem a hi))]
    rfl

theorem foldl_bump_replicate (p : Label) : ∀ (k j : Nat),
    (List.replicate k p).foldl bump [(p, j)] = [(p, j + k)] := by
  intro k
  induction k with
  | zero => intro j; simp
  | succ k ih =>
    intro j
    rw [List.replicate_succ, List.foldl_cons,
      show bump [(p, j)] p = [(p, j + 1)] from by simp [bump], ih (j + 1)]
    have harith : j + 1 + k = j + (k + 1) := by omega
    rw [harith]

theorem countLabels_replicate (p : Label) (n : Nat) (h : 1 ≤ n) :
    countLabels (List.replicate n p) = [(p, n)] := by
  obtain ⟨m, rfl⟩ : ∃ m, n = m + 1 := ⟨n - 1, by omega⟩
  rw [countLabels, List.replicate_succ, List.foldl_cons,
    show bump [] p = [(p, 1)] from rfl, foldl_bump_replicate p m 1]
  have harith : 1 + m = m + 1 := by omega
  rw [harith]

/-- predictRandomForest on a model whose trees are n copies of the same tree:
the vote is unanimous, so the probability mapping holds the single predicted
label with probability n/n = 1 and the confidence is 1. -/
theorem predictRF_replicate (x : Features) (T : Tree) (n ne md mss msl ts : Nat) (rs : Int)
    (fns : List String) (ta : String) (hn : 1 ≤ n) :
    predictRandomForest
      { nEstimators := ne, maxDepth := md, minSamplesSplit := mss, minSamplesLeaf := msl,
        randomState := rs, trees := List.replicate n T, featureNames := fns,
        trainedAt := ta, trainingSamples := ts } x
      = some { prediction := predictTree T.nodes x,
               probabilities := [(predictTree T.nodes x, 1)], confidence := 1 } := by
  have hne : n ≠ 0 := by omega
  have hTne : ((n : Nat) : Rat) ≠ 0 := by exact_mod_cast hne
  unfold predictRandomForest
  simp only [List.map_replicate, List.length_replicate]
  rw [countLabels_replicate _ n hn]
  simp only [List.map_cons, List.map_nil]
  rw [div_self hTne]
  simp [argmaxReduce, jsKeys, probOf]

/-- C9 (code bug): the claim reasons correctly about the tree-training loop
the source contains - randomState is destructured but never used, there is no
bootstrap resampling, and every tree is built from the identical full sample
set, so all trees are structurally identical, every vote is unanimous, and
the probability mapping is a single class at exactly 1 with confidence 1 -
but that loop is unreachable: the source calls the async prepareTrainingData
without await, so trainRandomForest itself throws a TypeError at
Object.keys(features[0]) and returns a model for no input at all. -/
theorem trainRandomForest_unawaited_prepare (data : List μ) (o : RFOptions) (now : String)
    (features : List Features) (labels : List Label)
    (h1 : 1 ≤ o.nEstimators) (h2 : 1 ≤ o.minSamplesLeaf)
    (h3 : features ≠ []) (h4 : labels.length = features.length) :
    trainRandomForest data o now = none ∧
    ∃ m, trainRandomForestPrepared features labels o now = some m ∧
      (∀ t1 ∈ m.trees, ∀ t2 ∈ m.trees, t1 = t2) ∧
      ∀ x, ∃ c, predictRandomForest m x
        = some { prediction := c, probabilities := [(c, 1)], confidence := 1 } := by
  refine ⟨rfl, ?_⟩
  obtain ⟨nd, hnd⟩ := buildTree_isSome o.maxDepth 0 o.maxDepth o.minSamplesSplit
    o.minSamplesLeaf features labels (by omega) h2 h3 h4
  have htd : ∀ (rs : Int), trainDecisionTree features labels o.maxDepth o.minSamplesSplit
      o.minSamplesLeaf rs
      = some { maxDepth := o.maxDepth, minSamplesSplit := o.minSamplesSplit,
               minSamplesLeaf := o.minSamplesLeaf, nodes := nd } := by
    intro rs
    rw [trainDecisionTree, hnd]
    rfl
  have hmapM := mapM_eq_replicate
    (fun (i : Nat) => trainDecisionTree features labels o.maxDepth o.minSamplesSplit
      o.minSamplesLeaf (o.randomState + (i : Int)))
    { maxDepth := o.maxDepth, minSamplesSplit := o.minSamplesSplit,
      minSamplesLeaf := o.minSamplesLeaf, nodes := nd }
    (List.range o.nEstimators)
    (fun i _ => htd _)
  rw [List.length_range] at hmapM
  refine ⟨{ nEstimators := o.nEstimators, maxDepth := o.maxDepth,
            minSamplesSplit := o.minSamplesSplit, minSamplesLeaf := o.minSamplesLeaf,
            randomState := o.randomState,
            trees := List.replicate o.nEstimators
              { maxDepth := o.maxDepth, minSamplesSplit := o.minSamplesSplit,
                minSamplesLeaf := o.minSamplesLeaf, nodes := nd },
            featureNames := jsKeys (features.headD []), trainedAt := now,
            trainingSamples := features.length }, ?_, ?_, ?_⟩
  · unfold trainRandomForestPrepared
    rw [hmapM]
    rfl
  · intro t1 ht1 t2 ht2
    have e1 := List.eq_of_mem_replicate (by simpa using ht1)
    have e2 := List.eq_of_mem_replicate (by simpa using ht2)
    rw [e1, e2]
  · intro x
    exact ⟨_, predictRF_replicate x _ o.nEstimators o.nEstimators o.maxDepth
      o.minSamplesSplit o.minSamplesLeaf features.length o.randomState
      (jsKeys (features.headD [])) now h1⟩

/-- Witness for C9 at a concrete call (any data) and a two-sample prepared
array at the default options. -/
theorem trainRandomForest_unawaited_prepare_witness :
    trainRandomForest [0, 1] {} "now" = none ∧
    ∃ m, trainRandomForestPrepared [[("x", 0)], [("x", 1)]] ["HOME_TEAM", "AWAY_TEAM"]
        {} "now" = some m ∧
      (∀ t1 ∈ m.trees, ∀ t2 ∈ m.trees, t1 = t2) ∧
      ∀ x, ∃ c, predictRandomForest m x
        = some { prediction := c, probabilities := [(c, 1)], confidence := 1 } :=
  trainRandomForest_unawaited_prepare [0, 1] {} "now" [[("x", 0)], [("x", 1)]]
    ["HOME_TEAM", "AWAY_TEAM"] (by decide) (by decide) (by decide) (by decide)

/-! ### C3: the split partition invariant of buildTree -/

theorem length_filter_split (p : α → Bool) (l : List α) :
    (l.filter p).length + (l.filter (fun x => !p x)).length = l.length := by
  induction l with
  | nil => simp
  | cons a l ih =>
    cases hp : p a <;> simp [List.filter_cons, hp, ← ih] <;> omega

theorem createLeafNode_ne_split (labels : List Label) (f : String) (t : Rat) (l r : Node) :
    createLeafNode labels ≠ some (Node.split f t l r) := by
  intro h
  rcases Option.map_eq_some'.mp h with ⟨pl, _, hnode⟩
  exact Node.noConfusion hnode

/-- C3: whenever buildTree produces a split node, the node's children were
built from the two filter halves of the node's sample set: the halves
partition the samples with no overlap and no loss (a sample goes left exactly
when its value for the split feature is <= the threshold, an absent value
going right), their lengths sum to the node's sample count, and the children
are the recursive builds of exactly those halves. -/
theorem buildTree_split_partition (features : List Features) (labels : List Label)
    (d md mss msl : Nat) (f : String) (t : Rat) (l r : Node)
    (hlen : labels.length = features.length)
    (h : buildTree features labels d md mss msl = some (Node.split f t l r)) :
    ((features.zip labels).filter (fun s => goesLeft s.1 f t)).length
        + ((features.zip labels).filter (fun s => !goesLeft s.1 f t)).length
      = features.length ∧
    (∀ s ∈ features.zip labels,
      (s ∈ (features.zip labels).filter (fun s => goesLeft s.1 f t)
        ↔ goesLeft s.1 f t = true) ∧
      (s ∈ (features.zip labels).filter (fun s => !goesLeft s.1 f t)
        ↔ goesLeft s.1 f t = false)) ∧
    buildTree (((features.zip labels).filter (fun s => goesLeft s.1 f t)).map (fun s => s.1))
      (((features.zip labels).filter (fun s => goesLeft s.1 f t)).map (fun s => s.2))
      (d + 1) md mss msl = some l ∧
    buildTree (((features.zip labels).filter (fun s => !goesLeft s.1 f t)).map (fun s => s.1))
      (((features.zip labels).filter (fun s => !goesLeft s.1 f t)).map (fun s => s.2))
      (d + 1) md mss msl = some r := by
  rw [buildTree] at h
  by_cases hstop : d ≥ md ∨ features.length < mss
  · rw [if_pos hstop] at h
    exact absurd h (createLeafNode_ne_split labels f t l r)
  · rw [if_neg hstop] at h
    cases hbs : findBestSplit features labels with
    | none =>
      rw [hbs] at h
      exact absurd h (createLeafNode_ne_split labels f t l r)
    | some bestSplit =>
      rw [hbs] at h
      have h2 :
          (if ((features.zip labels).filter
                (fun s => goesLeft s.1 bestSplit.1 bestSplit.2)).length < msl ∨
              ((features.zip labels).filter
                (fun s => !goesLeft s.1 bestSplit.1 bestSplit.2)).length < msl then
            createLeafNode labels
          else do
            let lt ← buildTree
              (((features.zip labels).filter
                (fun s => goesLeft s.1 bestSplit.1 bestSplit.2)).map (fun s => s.1))
              (((features.zip labels).filter
                (fun s => goesLeft s.1 bestSplit.1 bestSplit.2)).map (fun s => s.2))
              (d + 1) md mss msl
            let rt ← buildTree
              (((features.zip labels).filter
                (fun s => !goesLeft s.1 bestSplit.1 bestSplit.2)).map (fun s => s.1))
              (((features.zip labels).filter
                (fun s => !goesLeft s.1 bestSplit.1 bestSplit.2)).map (fun s => s.2))
              (d + 1) md mss msl
            pure (Node.split bestSplit.1 bestSplit.2 lt rt))
          = some (Node.split f t l r) := h
      by_cases hleaf :
          ((features.zip labels).filter
            (fun s => goesLeft s.1 bestSplit.1 bestSplit.2)).length < msl ∨
          ((features.zip labels).filter
            (fun s => !goesLeft s.1 bestSplit.1 bestSplit.2)).length < msl
      · rw [if_pos hleaf] at h2
        exact absurd h2 (createLeafNode_ne_split labels f t l r)
      · rw [if_neg hleaf] at h2
        rcases Option.bind_eq_some.mp h2 with ⟨lt, hlt, h3⟩
        rcases Option.bind_eq_some.mp h3 with ⟨rt, hrt, h4⟩
        have hinj : bestSplit.1 = f ∧ bestSplit.2 = t ∧ lt = l ∧ rt = r := by
          have h5 := Option.some.inj h4
          exact ⟨congrArg (fun n => match n with
              | Node.split f _ _ _ => f
              | _ => bestSplit.1) h5,
            congrArg (fun n => match n with
              | Node.split _ t _ _ => t
              | _ => bestSplit.2) h5,
            congrArg (fun n => match n with
              | Node.split _ _ l _ => l
              | _ => lt) h5,
            congrArg (fun n => match n with
              | Node.split _ _ _ r => r
              | _ => rt) h5⟩
        rcases hinj with ⟨hf, ht, hl, hr⟩
        rw [hf, ht] at hlt hrt
        rw [hl] at hlt
        rw [hr] at hrt
        refine ⟨?_, ?_, hlt, hrt⟩
        · rw [length_filter_split (fun s => goesLeft s.1 f t) (features.zip labels),
            List.length_zip, hlen, Nat.min_self]
        · intro s hs
          constructor
          · constructor
            · intro hmem
              exact (List.mem_filter.mp hmem).2
            · intro hgl
              exact List.mem_filter.mpr ⟨hs, hgl⟩
          · constructor
            · intro hmem
              have := (List.mem_filter.mp hmem).2
              cases hb : goesLeft s.1 f t
              · rfl
              · rw [hb] at this
                exact absurd this (by decide)
            · intro hgl
              exact List.mem_filter.mpr ⟨hs, by rw [hgl]; rfl⟩

/-- Witness for C3 at a two-sample build that splits on feature x at 1/2. -/
theorem buildTree_split_partition_witness :
    ((([[("x", 0)], [("x", 1)]] : List Features).zip ["H", "A"]).filter
        (fun s => goesLeft s.1 "x" (1 / 2))).length
        + ((([[("x", 0)], [("x", 1)]] : List Features).zip ["H", "A"]).filter
            (fun s => !goesLeft s.1 "x" (1 / 2))).length
      = ([[("x", 0)], [("x", 1)]] : List Features).length ∧
    (∀ s ∈ ([[("x", 0)], [("x", 1)]] : List Features).zip ["H", "A"],
      (s ∈ (([[("x", 0)], [("x", 1)]] : List Features).zip ["H", "A"]).filter
          (fun s => goesLeft s.1 "x" (1 / 2))
        ↔ goesLeft s.1 "x" (1 / 2) = true) ∧
      (s ∈ (([[("x", 0)], [("x", 1)]] : List Features).zip ["H", "A"]).filter
          (fun s => !goesLeft s.1 "x" (1 / 2))
        ↔ goesLeft s.1 "x" (1 / 2) = false)) ∧
    buildTree (((([[("x", 0)], [("x", 1)]] : List Features).zip ["H", "A"]).filter
        (fun s => goesLeft s.1 "x" (1 / 2))).map (fun s => s.1))
      (((([[("x", 0)], [("x", 1)]] : List Features).zip ["H", "A"]).filter
        (fun s => goesLeft s.1 "x" (1 / 2))).map (fun s => s.2))
      (0 + 1) 10 2 1 = some (Node.leaf [("H", 1)] "H") ∧
    buildTree (((([[("x", 0)], [("x", 1)]] : List Features).zip ["H", "A"]).filter
        (fun s => !goesLeft s.1 "x" (1 / 2))).map (fun s => s.1))
      (((([[("x", 0)], [("x", 1)]] : List Features).zip ["H", "A"]).filter
        (fun s => !goesLeft s.1 "x" (1 / 2))).map (fun s => s.2))
      (0 + 1) 10 2 1 = some (Node.leaf [("A", 1)] "A") :=
  buildTree_split_partition [[("x", 0)], [("x", 1)]] ["H", "A"] 0 10 2 1 "x" (1 / 2)
    (Node.leaf [("H", 1)] "H") (Node.leaf [("A", 1)] "A") (by decide)
    (by norm_num +decide [buildTree, findBestSplit, bestSplitStep, splitCandidates,
      uniqueSortedValues, featureValuesOf, jsGet, jsKeys, sortRats, insertSorted, midpoints,
      candGini, splitLabels, calculateGiniImpurity, calculateNodeGini, countLabels, bump,
      goesLeft, createLeafNode, argmaxReduce, probOf])

/-! ### C4: cross-validation folds -/

theorem jsSlice_zero (l : List α) (e : Nat) : jsSlice l 0 e = l.take e := by
  simp [jsSlice]

theorem getCVFold_val_eq (data : List α) (i k : Nat) :
    (getCVFold data i k).2 = jsSlice data (i * (data.length / k))
      (if i = k - 1 then data.length else (i + 1) * (data.length / k)) := rfl

theorem getCVFold_train_eq (data : List α) (i k : Nat) :
    (getCVFold data i k).1 = data.take (i * (data.length / k))
      ++ data.drop (if i = k - 1 then data.length else (i + 1) * (data.length / k)) := by
  show jsSlice data 0 (i * (data.length / k)) ++ data.drop _ = _
  rw [jsSlice_zero]

theorem flatten_slices (l : List α) (s : Nat) : ∀ m,
    ((List.range m).map (fun i => jsSlice l (i * s) ((i + 1) * s))).flatten
      = l.take (m * s) := by
  intro m
  induction m with
  | zero => simp
  | succ m ih =>
    rw [List.range_succ, List.map_append, List.flatten_append, ih]
    simp only [List.map_cons, List.map_nil]
    rw [show ([jsSlice l (m * s) ((m + 1) * s)] : List (List α)).flatten
        = jsSlice l (m * s) ((m + 1) * s) from by simp]
    have hamount : (m + 1) * s - m * s = s := by
      rw [Nat.succ_mul]
      omega
    show l.take (m * s) ++ (l.drop (m * s)).take ((m + 1) * s - m * s) = l.take ((m + 1) * s)
    rw [hamount, Nat.succ_mul, List.take_add]

/-- C4: for 1 <= k <= n, the k validation folds of getCVFold are contiguous
slices whose concatenation in fold order is exactly the input (so they are
pairwise disjoint and cover every sample exactly once); every non-last fold
has size floor(n/k) and the last absorbs the remainder; and each fold's
training part is the input with the validation slice cut out. -/
theorem getCVFold_partition (data : List α) (k : Nat) (h1 : 1 ≤ k) (h2 : k ≤ data.length) :
    ((List.range k).map (fun i => (getCVFold data i k).2)).flatten = data ∧
    (∀ i, i + 1 < k → (getCVFold data i k).2.length = data.length / k) ∧
    (getCVFold data (k - 1) k).2.length = data.length - (k - 1) * (data.length / k) ∧
    (∀ i, i < k → ∃ pre post, (getCVFold data i k).1 = pre ++ post ∧
      data = pre ++ (getCVFold data i k).2 ++ post) := by
  have hks : k * (data.length / k) ≤ data.length := by
    rw [Nat.mul_comm]
    exact Nat.div_mul_le_self data.length k
  refine ⟨?_, ?_, ?_, ?_⟩
  · obtain ⟨j, rfl⟩ : ∃ j, k = j + 1 := ⟨k - 1, by omega⟩
    rw [List.range_succ, List.map_append, List.flatten_append]
    rw [List.map_congr_left (g := fun i => jsSlice data (i * (data.length / (j + 1)))
        ((i + 1) * (data.length / (j + 1))))
      (fun i hi => by
        rw [getCVFold_val_eq, if_neg (by
          have := List.mem_range.mp hi
          omega)])]
    rw [flatten_slices]
    simp only [List.map_cons, List.map_nil]
    rw [show ([(getCVFold data j (j + 1)).2] : List (List α)).flatten
        = (getCVFold data j (j + 1)).2 from by simp]
    rw [getCVFold_val_eq, if_pos (by omega)]
    have hlast : jsSlice data (j * (data.length / (j + 1))) data.length
        = data.drop (j * (data.length / (j + 1))) := by
      show (data.drop (j * (data.length / (j + 1)))).take
        (data.length - j * (data.length / (j + 1))) = _
      rw [List.take_of_length_le (by rw [List.length_drop])]
    rw [hlast, List.take_append_drop]
  · intro i hik
    rw [getCVFold_val_eq, if_neg (by omega)]
    have hle : (i + 1) * (data.length / k) ≤ k * (data.length / k) :=
      Nat.mul_le_mul_right _ (by omega)
    have hik2 : i * (data.length / k) + data.length / k ≤ data.length := by
      have := le_trans hle hks
      rw [Nat.succ_mul] at this
      exact this
    show ((data.drop (i * (data.length / k))).take
        ((i + 1) * (data.length / k) - i * (data.length / k))).length = data.length / k
    have hamount : (i + 1) * (data.length / k) - i * (data.length / k) = data.length / k := by
      rw [Nat.succ_mul]
      exact Nat.add_sub_cancel_left (i * (data.length / k)) (data.length / k)
    rw [hamount, List.length_take, List.length_drop]
    exact Nat.min_eq_left (Nat.le_sub_of_add_le (by rw [Nat.add_comm]; exact hik2))
  · rw [getCVFold_val_eq, if_pos rfl]
    show ((data.drop ((k - 1) * (data.length / k))).take
        (data.length - (k - 1) * (data.length / k))).length = _
    rw [List.length_take, List.length_drop, Nat.min_self]
  · intro i hik
    have hstart_le : i * (data.length / k)
        ≤ (if i = k - 1 then data.length else (i + 1) * (data.length / k)) := by
      by_cases hi : i = k - 1
      · rw [if_pos hi]
        calc i * (data.length / k) ≤ k * (data.length / k) :=
              Nat.mul_le_mul_right _ (by omega)
          _ ≤ data.length := hks
      · rw [if_neg hi]
        exact Nat.mul_le_mul_right _ (by omega)
    refine ⟨data.take (i * (data.length / k)),
      data.drop (if i = k - 1 then data.length else (i + 1) * (data.length / k)),
      getCVFold_train_eq data i k, ?_⟩
    rw [getCVFold_val_eq]
    have hdrop : data.drop (if i = k - 1 then data.length else (i + 1) * (data.length / k))
        = (data.drop (i * (data.length / k))).drop
          ((if i = k - 1 then data.length else (i + 1) * (data.length / k))
            - i * (data.length / k)) := by
      rw [List.drop_drop, Nat.add_sub_cancel' hstart_le]
    rw [hdrop, List.append_assoc]
    show data = data.take (i * (data.length / k))
      ++ ((data.drop (i * (data.length / k))).take
          ((if i = k - 1 then data.length else (i + 1) * (data.length / k))
            - i * (data.length / k))
        ++ (data.drop (i * (data.length / k))).drop
          ((if i = k - 1 then data.length else (i + 1) * (data.length / k))
            - i * (data.length / k)))
    rw [List.take_append_drop, List.take_append_drop]

/-- Witness for C4 at a five-element list split into two folds. -/
theorem getCVFold_partition_witness :
    ((List.range 2).map (fun i => (getCVFold [0, 1, 2, 3, 4] i 2).2)).flatten
        = [0, 1, 2, 3, 4] ∧
    (∀ i, i + 1 < 2 → (getCVFold [0, 1, 2, 3, 4] i 2).2.length = [0, 1, 2, 3, 4].length / 2) ∧
    (getCVFold [0, 1, 2, 3, 4] (2 - 1) 2).2.length
        = [0, 1, 2, 3, 4].length - (2 - 1) * ([0, 1, 2, 3, 4].length / 2) ∧
    (∀ i, i < 2 → ∃ pre post, (getCVFold [0, 1, 2, 3, 4] i 2).1 = pre ++ post ∧
      [0, 1, 2, 3, 4] = pre ++ (getCVFold [0, 1, 2, 3, 4] i 2).2 ++ post) :=
  getCVFold_partition ([0, 1, 2, 3, 4] : List Nat) 2 (by decide) (by decide)

/-! ### C5: feature normalisation bounds -/

theorem normalize_mem_unit (v mn mx : Rat) :
    0 ≤ normalize v mn mx ∧ normalize v mn mx ≤ 1 := by
  unfold normalize
  by_cases h : mx = mn
  · rw [if_pos h]
    norm_num
  · rw [if_neg h]
    exact ⟨le_max_left 0 _, max_le (by norm_num) (min_le_left 1 _)⟩

/-- C5 counterexample: a numeric feature whose key matches none of the five
normalisation groups (here "foo") is copied through unchanged, so the output
value 5 lies outside [0, 1]. -/
theorem normalizeFeatures_unmatched_key_not_clamped :
    normalizeFeatures [("foo", JsVal.num 5)] = [("foo", JsVal.num 5)] ∧
    ¬ ((5 : Rat) ≤ 1) := by
  constructor
  · decide
  · decide

/-- C5 amended: a numeric feature whose key matches one of the five
normalisation groups is clamped into [0, 1]; a numeric feature matching no
group, like every non-numeric value, is passed through unchanged. -/
theorem normalizeFeatures_clamps_matched (fs : List (String × JsVal)) (k : String) (v : Rat)
    (hmem : (k, JsVal.num v) ∈ normalizeFeatures fs) :
    (matchesGroup k = true → 0 ≤ v ∧ v ≤ 1) ∧
    (matchesGroup k = false → (k, JsVal.num v) ∈ fs) := by
  rcases List.mem_map.mp hmem with ⟨kv, hkv, hg⟩
  rcases kv with ⟨k0, v0⟩
  cases v0 with
  | str s => exact absurd (congrArg (fun p => p.2) hg) (by simp)
  | num x =>
    have hk : k0 = k := congrArg (fun p => p.1) hg
    have hv : (if strContains k0 "win_rate" then normalize x 0 1
        else if strContains k0 "goals" then normalize x 0 10
        else if strContains k0 "points" then normalize x 0 30
        else if strContains k0 "goal_difference" then normalize x (-20) 20
        else if strContains k0 "momentum" then normalize x (-9) 9
        else x) = v := by
      have := congrArg (fun p => p.2) hg
      simpa using this
    rw [hk] at hv
    constructor
    · intro hgroup
      by_cases h1 : strContains k "win_rate"
      · rw [if_pos h1] at hv
        rw [← hv]
        exact normalize_mem_unit x 0 1
      · rw [if_neg h1] at hv
        by_cases h2 : strContains k "goals"
        · rw [if_pos h2] at hv
          rw [← hv]
          exact normalize_mem_unit x 0 10
        · rw [if_neg h2] at hv
          by_cases h3 : strContains k "points"
          · rw [if_pos h3] at hv
            rw [← hv]
            exact normalize_mem_unit x 0 30
          · rw [if_neg h3] at hv
            by_cases h4 : strContains k "goal_difference"
            · rw [if_pos h4] at hv
              rw [← hv]
              exact normalize_mem_unit x (-20) 20
            · rw [if_neg h4] at hv
              by_cases h5 : strContains k "momentum"
              · rw [if_pos h5] at hv
                rw [← hv]
                exact normalize_mem_unit x (-9) 9
              · exact absurd hgroup (by simp [matchesGroup, h1, h2, h3, h4, h5])
    · intro hgroup
      have hflags : (((strContains k "win_rate" = false ∧ strContains k "goals" = false) ∧
          strContains k "points" = false) ∧ strContains k "goal_difference" = false) ∧
          strContains k "momentum" = false := by
        simpa [matchesGroup] using hgroup
      rw [hflags.1.1.1.1, hflags.1.1.1.2, hflags.1.1.2, hflags.1.2, hflags.2] at hv
      simp only [Bool.false_eq_true, if_false] at hv
      have : (k0, JsVal.num x) = (k, JsVal.num v) := by
        rw [hk, hv]
      rw [← this]
      exact hkv

/-- Witness for the amended C5: home_win_rate = 5 is clamped to 1. -/
theorem normalizeFeatures_clamps_matched_witness :
    (matchesGroup "home_win_rate" = true → 0 ≤ (1 : Rat) ∧ (1 : Rat) ≤ 1) ∧
    (matchesGroup "home_win_rate" = false →
      ("home_win_rate", JsVal.num 1) ∈ [("home_win_rate", JsVal.num 5)]) :=
  normalizeFeatures_clamps_matched [("home_win_rate", JsVal.num 5)] "home_win_rate" 1
    (by norm_num +decide [normalizeFeatures, normalize, min_def, max_def])

/-! ### C7: the insufficient-data guard of ModelTrainer.trainModels -/

/-- C7: when the retrieved training data holds fewer than 100 matches,
trainModels throws the InsufficientData error before any per-type training or
saveModel call, so no model is persisted and the model store is unchanged. -/
theorem trainModels_insufficient_data {μ : Type}
    (trainModelType : String → List μ → Option Model) (modelTypes : List String)
    (trainingData : List μ) (store : Store) (h : trainingData.length < 100) :
    trainModels trainModelType modelTypes trainingData store
      = Except.error ("Insufficient training data: " ++ toString trainingData.length ++
          " matches. Need at least 100 matches for reliable training.") ∧
    (match trainModels trainModelType modelTypes trainingData store with
      | Except.ok s => s
      | Except.error _ => store) = store := by
  have he : trainModels trainModelType modelTypes trainingData store
      = Except.error ("Insufficient training data: " ++ toString trainingData.length ++
          " matches. Need at least 100 matches for reliable training.") := by
    unfold trainModels
    rw [if_pos h]
  exact ⟨he, by rw [he]⟩

/-- Witness for C7 at 99 matches. -/
theorem trainModels_insufficient_data_witness :
    trainModels (fun (_ : String) (_ : List Nat) => none)
        ["random_forest", "neural_network"] (List.range 99) []
      = Except.error ("Insufficient training data: " ++ toString (List.range 99).length ++
          " matches. Need at least 100 matches for reliable training.") ∧
    (match trainModels (fun (_ : String) (_ : List Nat) => none)
        ["random_forest", "neural_network"] (List.range 99) [] with
      | Except.ok s => s
      | Except.error _ => ([] : Store)) = ([] : Store) :=
  trainModels_insufficient_data (fun _ _ => none) ["random_forest", "neural_network"]
    (List.range 99) [] (by simp)

/-! ### C2: the save/load round trip -/

theorem mapM_decode_encode (enc : α → β) (dec : β → Option α)
    (h : ∀ x, dec (enc x) = some x) : ∀ l : List α, (l.map enc).mapM dec = some l := by
  intro l
  induction l with
  | nil => rfl
  | cons a l ih =>
    rw [List.map_cons, List.mapM_cons, h a, ih]
    rfl

theorem decodeNat_natCast (n : Nat) : decodeNat (Json.num (n : Rat)) = some n := by
  show (if 0 ≤ ((n : Rat)).num ∧ ((n : Rat)).den = 1
      then some ((n : Rat)).num.toNat else none) = some n
  rw [if_pos ⟨by simp, by simp⟩]
  simp

theorem decodeInt_intCast (i : Int) : decodeInt (Json.num (i : Rat)) = some i := by
  show (if ((i : Rat)).den = 1 then some ((i : Rat)).num else none) = some i
  rw [if_pos (by simp)]
  simp

theorem decodeNode_encodeNode (n : Node) : decodeNode (encodeNode n) = some n := by
  induction n with
  | leaf probs pred =>
    show (do
        let probs2 ← (probs.map (fun p => (p.1, Json.num p.2))).mapM (fun p =>
          match p.2 with
          | Json.num q => some (p.1, q)
          | _ => none)
        pure (Node.leaf probs2 pred)) = some (Node.leaf probs pred)
    rw [mapM_decode_encode (fun p => (p.1, Json.num p.2))
      (fun p =>
        match p.2 with
        | Json.num q => some (p.1, q)
        | _ => none)
      (fun p => rfl) probs]
    rfl
  | split f t l r ihl ihr =>
    show (do
        let l2 ← decodeNode (encodeNode l)
        let r2 ← decodeNode (encodeNode r)
        pure (Node.split f t l2 r2)) = some (Node.split f t l r)
    rw [ihl, ihr]
    rfl

theorem decodeTree_encodeTree (t : Tree) : decodeTree (encodeTree t) = some t := by
  show (do
      let md ← decodeNat (Json.num (t.maxDepth : Rat))
      let mss ← decodeNat (Json.num (t.minSamplesSplit : Rat))
      let msl ← decodeNat (Json.num (t.minSamplesLeaf : Rat))
      let n ← decodeNode (encodeNode t.nodes)
      pure ({ maxDepth := md, minSamplesSplit := mss, minSamplesLeaf := msl,
              nodes := n } : Tree)) = some t
  rw [decodeNat_natCast, decodeNat_natCast, decodeNat_natCast, decodeNode_encodeNode]
  rfl

theorem decodeModel_encodeModel (m : Model) : decodeModel (encodeModel m) = some m := by
  show (do
      let ne ← decodeNat (Json.num (m.nEstimators : Rat))
      let md ← decodeNat (Json.num (m.maxDepth : Rat))
      let mss ← decodeNat (Json.num (m.minSamplesSplit : Rat))
      let msl ← decodeNat (Json.num (m.minSamplesLeaf : Rat))
      let rs ← decodeInt (Json.num (m.randomState : Rat))
      let trees ← (m.trees.map encodeTree).mapM decodeTree
      let fns ← (m.featureNames.map Json.str).mapM (fun f =>
        match f with
        | Json.str s => some s
        | _ => none)
      let ts ← decodeNat (Json.num (m.trainingSamples : Rat))
      pure ({ nEstimators := ne, maxDepth := md, minSamplesSplit := mss,
              minSamplesLeaf := msl, randomState := rs, trees := trees,
              featureNames := fns, trainedAt := m.trainedAt,
              trainingSamples := ts } : Model)) = some m
  rw [decodeNat_natCast, decodeNat_natCast, decodeNat_natCast, decodeNat_natCast,
    decodeInt_intCast,
    mapM_decode_encode encodeTree decodeTree decodeTree_encodeTree m.trees,
    mapM_decode_encode Json.str
      (fun f =>
        match f with
        | Json.str s => some s
        | _ => none)
      (fun s => rfl) m.featureNames,
    decodeNat_natCast]
  rfl

/-- C2: loading a saved model returns the model unchanged, so prediction after
a save/load round trip agrees exactly with prediction on the original model
(for every feature vector and every prior store contents). -/
theorem saveModel_loadModel_roundtrip (store : Store) (m : Model) (name : String)
    (x : Features) :
    loadModel (saveModel store m name) name = some m ∧
    (loadModel (saveModel store m name) name).map (fun m2 => predictRandomForest m2 x)
      = some (predictRandomForest m x) := by
  have hload : loadModel (saveModel store m name) name = some m := by
    unfold loadModel saveModel
    rw [show (((name, encodeModel m) :: store).find? (fun p => p.1 == name))
        = some (name, encodeModel m) from by simp]
    simp [decodeModel_encodeModel]
  exact ⟨hload, by rw [hload]; rfl⟩

/-! ### C8: findBestSplit is a first-arg-min over the candidate enumeration -/

theorem insertSorted_eq (a : Rat) : ∀ l, insertSorted a l = List.orderedInsert (· ≤ ·) a l
  | [] => rfl
  | b :: l => by
    rw [insertSorted, List.orderedInsert, insertSorted_eq a l]

theorem sortRats_eq : ∀ l, sortRats l = List.insertionSort (· ≤ ·) l
  | [] => rfl
  | a :: l => by
    rw [show sortRats (a :: l) = insertSorted a (sortRats l) from rfl, sortRats_eq l,
      List.insertionSort, insertSorted_eq]

theorem foldl_sub_sum (f : α → Rat) : ∀ (l : List α) (init : Rat),
    l.foldl (fun g p => g - f p) init = init - (l.map f).sum := by
  intro l
  induction l with
  | nil => intro init; simp
  | cons a l ih =>
    intro init
    rw [List.foldl_cons, ih (init - f a), List.map_cons, List.sum_cons]
    ring

theorem foldl_bestSplitStep_spec (features : List Features) (labels : List Label) :
    ∀ (l : List (String × Rat)) (b : String × Rat),
    ∃ r, l.foldl (bestSplitStep features labels)
        (some (b, candGini features labels b)) = some (r, candGini features labels r) ∧
      ∃ l1 l2, b :: l = l1 ++ r :: l2 ∧
        (∀ y ∈ l1, candGini features labels r < candGini features labels y) ∧
        (∀ y ∈ b :: l, candGini features labels r ≤ candGini features labels y) := by
  intro l
  induction l with
  | nil =>
    intro b
    exact ⟨b, rfl, [], [], rfl, by simp, by simp⟩
  | cons c cs ih =>
    intro b
    by_cases hc : candGini features labels c < candGini features labels b
    · have hstep : (c :: cs).foldl (bestSplitStep features labels)
          (some (b, candGini features labels b))
          = cs.foldl (bestSplitStep features labels)
            (some (c, candGini features labels c)) := by
        rw [List.foldl_cons]
        congr 1
        show (if candGini features labels c < candGini features labels b
            then some (c, candGini features labels c)
            else some (b, candGini features labels b))
          = some (c, candGini features labels c)
        exact if_pos hc
      obtain ⟨r, hfold, l1, l2, hdec, hpre, hmin⟩ := ih c
      refine ⟨r, by rw [hstep, hfold], b :: l1, l2, ?_, ?_, ?_⟩
      · rw [List.cons_append, ← hdec]
      · intro y hy
        rcases List.mem_cons.mp hy with h1 | h1
        · rw [h1]
          exact lt_of_le_of_lt (hmin c (List.mem_cons_self c cs)) hc
        · exact hpre y h1
      · intro y hy
        rcases List.mem_cons.mp hy with h1 | h1
        · rw [h1]
          exact le_of_lt (lt_of_le_of_lt (hmin c (List.mem_cons_self c cs)) hc)
        · exact hmin y h1
    · have hstep : (c :: cs).foldl (bestSplitStep features labels)
          (some (b, candGini features labels b))
          = cs.foldl (bestSplitStep features labels)
            (some (b, candGini features labels b)) := by
        rw [List.foldl_cons]
        congr 1
        show (if candGini features labels c < candGini features labels b
            then some (c, candGini features labels c)
            else some (b, candGini features labels b))
          = some (b, candGini features labels b)
        exact if_neg hc
      obtain ⟨r, hfold, l1, l2, hdec, hpre, hmin⟩ := ih b
      cases l1 with
      | nil =>
        simp only [List.nil_append, List.cons.injEq] at hdec
        refine ⟨r, by rw [hstep, hfold], [], c :: cs, ?_, by simp, ?_⟩
        · rw [List.nil_append, hdec.1]
        · intro y hy
          rcases List.mem_cons.mp hy with h1 | h1
          · rw [h1, ← hdec.1]
          · rcases List.mem_cons.mp h1 with h2 | h2
            · rw [h2, ← hdec.1]
              exact le_of_not_lt hc
            · exact hmin y (List.mem_cons_of_mem b h2)
      | cons d l1 =>
        simp only [List.cons_append, List.cons.injEq] at hdec
        have hd : candGini features labels r < candGini features labels b := by
          have hdd := hpre d (List.mem_cons_self d l1)
          rw [← hdec.1] at hdd
          exact hdd
        refine ⟨r, by rw [hstep, hfold], b :: c :: l1, l2, ?_, ?_, ?_⟩
        · show b :: c :: cs = b :: c :: (l1 ++ r :: l2)
          rw [← hdec.2]
        · intro y hy
          rcases List.mem_cons.mp hy with h1 | h1
          · rw [h1]
            exact hd
          · rcases List.mem_cons.mp h1 with h2 | h2
            · rw [h2]
              exact lt_of_lt_of_le hd (le_of_not_lt hc)
            · exact hpre y (List.mem_cons_of_mem d h2)
        · intro y hy
          rcases List.mem_cons.mp hy with h1 | h1
          · rw [h1]
            exact hmin b (List.mem_cons_self b cs)
          · rcases List.mem_cons.mp h1 with h2 | h2
            · rw [h2]
              exact le_trans (hmin b (List.mem_cons_self b cs)) (le_of_not_lt hc)
            · exact hmin y (List.mem_cons_of_mem b h2)

/-- C8 counterexample: a non-empty sample set with a single sample has no
candidate threshold at all, and findBestSplit returns null rather than a
minimizing pair. -/
theorem findBestSplit_single_sample_none :
    findBestSplit [[("x", 0)]] ["A"] = none ∧ ([[("x", 0)]] : List Features) ≠ [] := by
  constructor
  · rfl
  · decide

/-- C8 amended: whenever the candidate list is non-empty, findBestSplit
returns the candidate of minimal weighted Gini impurity that comes first in
the feature/threshold enumeration order (every candidate before it scores
strictly worse); the candidate thresholds for each feature are the midpoints
of the ascending-sorted duplicate-free observed values; and the node Gini is
1 - sum of squared class proportions on non-empty label sets. When no
candidate exists (e.g. a single sample), findBestSplit returns null. -/
theorem findBestSplit_first_minimizer (features : List Features) (labels : List Label)
    (h : splitCandidates features ≠ []) :
    (∃ b, findBestSplit features labels = some b ∧ b ∈ splitCandidates features ∧
      (∀ c ∈ splitCandidates features,
        candGini features labels b ≤ candGini features labels c) ∧
      ∃ l1 l2, splitCandidates features = l1 ++ b :: l2 ∧
        ∀ c ∈ l1, candGini features labels b < candGini features labels c) ∧
    (∀ name, (uniqueSortedValues features name).Sorted (· ≤ ·) ∧
      (uniqueSortedValues features name).Nodup ∧
      ∀ v, v ∈ uniqueSortedValues features name ↔ v ∈ featureValuesOf features name) ∧
    (∀ ll : List Label, ll ≠ [] →
      calculateNodeGini ll
        = 1 - ((countLabels ll).map (fun p =>
            ((p.2 : Rat) / (ll.length : Rat)) * ((p.2 : Rat) / (ll.length : Rat)))).sum) := by
  refine ⟨?_, ?_, ?_⟩
  · obtain ⟨c0, cs, hcs⟩ := List.exists_cons_of_ne_nil h
    obtain ⟨r, hfold, l1, l2, hdec, hpre, hmin⟩ :=
      foldl_bestSplitStep_spec features labels cs c0
    refine ⟨r, ?_, ?_, ?_, l1, l2, by rw [hcs, hdec], fun c hcmem => hpre c hcmem⟩
    · rw [findBestSplit, hcs, List.foldl_cons]
      rw [show bestSplitStep features labels none c0
          = some (c0, candGini features labels c0) from rfl]
      rw [hfold]
      rfl
    · rw [hcs, hdec]
      exact List.mem_append_right l1 (List.mem_cons_self r l2)
    · intro c hcmem
      rw [hcs] at hcmem
      exact hmin c hcmem
  · intro name
    refine ⟨?_, ?_, ?_⟩
    · rw [uniqueSortedValues, sortRats_eq]
      exact List.sorted_insertionSort _ _
    · rw [uniqueSortedValues, sortRats_eq]
      exact ((List.perm_insertionSort (· ≤ ·) _).symm).nodup (List.nodup_dedup _)
    · intro v
      rw [uniqueSortedValues, sortRats_eq,
        (List.perm_insertionSort (· ≤ ·) _).mem_iff]
      exact List.mem_dedup
  · intro ll hll
    rw [calculateNodeGini, if_neg (fun h0 => hll (List.length_eq_zero.mp h0))]
    exact foldl_sub_sum
      (fun p => ((p.2 : Rat) / (ll.length : Rat)) * ((p.2 : Rat) / (ll.length : Rat)))
      (countLabels ll) 1

/-- Witness for the amended C8 at a two-sample set with one candidate. -/
theorem findBestSplit_first_minimizer_witness :
    (∃ b, findBestSplit [[("x", 0)], [("x", 1)]] ["H", "A"] = some b ∧
      b ∈ splitCandidates [[("x", 0)], [("x", 1)]] ∧
      (∀ c ∈ splitCandidates [[("x", 0)], [("x", 1)]],
        candGini [[("x", 0)], [("x", 1)]] ["H", "A"] b
          ≤ candGini [[("x", 0)], [("x", 1)]] ["H", "A"] c) ∧
      ∃ l1 l2, splitCandidates [[("x", 0)], [("x", 1)]] = l1 ++ b :: l2 ∧
        ∀ c ∈ l1, candGini [[("x", 0)], [("x", 1)]] ["H", "A"] b
          < candGini [[("x", 0)], [("x", 1)]] ["H", "A"] c) ∧
    (∀ name, (uniqueSortedValues [[("x", 0)], [("x", 1)]] name).Sorted (· ≤ ·) ∧
      (uniqueSortedValues [[("x", 0)], [("x", 1)]] name).Nodup ∧
      ∀ v, v ∈ uniqueSortedValues [[("x", 0)], [("x", 1)]] name
        ↔ v ∈ featureValuesOf [[("x", 0)], [("x", 1)]] name) ∧
    (∀ ll : List Label, ll ≠ [] →
      calculateNodeGini ll
        = 1 - ((countLabels ll).map (fun p =>
            ((p.2 : Rat) / (ll.length : Rat)) * ((p.2 : Rat) / (ll.length : Rat)))).sum) :=
  findBestSplit_first_minimizer [[("x", 0)], [("x", 1)]] ["H", "A"] (by decide)

end FootballAI
